import Mathlib

/-!
Shallow embedding of the cryptolib repository (src/abstract.py): a prime
field with extended-Euclid based inversion, square-and-multiply
exponentiation, and the secp256k1 elliptic-curve scaffolding, together
with theorems settling the specification claims.  Field-element values
are modelled as `Nat` on the canonical range `[0, p)` maintained by the
source's arithmetic; the Bezout coefficients produced by `xgcd` (and hence
the result of `Field.inverse`) are integers, since the source returns them
unreduced.
-/

namespace Cryptolib

/-- Body of the `while r != 0` loop of `xgcd` in src/abstract.py.  The
state is the three pairs `(old_r, r)`, `(old_s, s)`, `(old_t, t)`; the
remainders stay non-negative for non-negative inputs, so they are `Nat`,
while the Bezout coefficients are integers.  Each iteration computes
`quotient = old_r // r` and replaces each pair `(old, cur)` by
`(cur, old - quotient * cur)`, exactly as the source does. -/
def xgcdLoop (oldr r : Nat) (olds s oldt t : Int) : Int × Int × Nat :=
  if r = 0 then (olds, oldt, oldr)
  else
    xgcdLoop r (oldr - oldr / r * r)
      s (olds - (oldr / r : Nat) * s)
      t (oldt - (oldr / r : Nat) * t)
termination_by r
decreasing_by
  have h1 := Nat.div_add_mod oldr r
  have h2 : oldr % r < r := Nat.mod_lt _ (Nat.pos_of_ne_zero (by assumption))
  rw [Nat.mul_comm] at h1
  omega

/-- Function `xgcd(x, y)` of src/abstract.py on non-negative inputs:
initial state `old_r, r = (x, y)`, `old_s, s = (1, 0)`, `old_t, t = (0, 1)`;
returns `(old_s, old_t, old_r)`. -/
def xgcd (x y : Nat) : Int × Int × Nat :=
  xgcdLoop x y 1 0 0 1

/-- Fuel-indexed version of the `xgcd` while loop: `none` means the loop
did not reach `r = 0` within `fuel` iterations.  Used to state that the
loop terminates after finitely many iterations. -/
def xgcdLoopF (fuel : Nat) (oldr r : Nat) (olds s oldt t : Int) :
    Option (Int × Int × Nat) :=
  if r = 0 then some (olds, oldt, oldr)
  else
    match fuel with
    | 0 => none
    | fuel' + 1 =>
        xgcdLoopF fuel' r (oldr - oldr / r * r)
          s (olds - (oldr / r : Nat) * s)
          t (oldt - (oldr / r : Nat) * t)

namespace Field

/-- Method `Field.add`: `(left.value + right.value) % self.p`. -/
def add (p l r : Nat) : Nat := (l + r) % p

/-- Method `Field.multiply`: `(left.value * right.value) % self.p`. -/
def multiply (p l r : Nat) : Nat := (l * r) % p

/-- Method `Field.subtract`: `(self.p + left.value - right.value) % self.p`.
On canonical values (`r < p`) the `Nat` subtraction never truncates, so
this agrees with the source's integer arithmetic. -/
def subtract (p l r : Nat) : Nat := (p + l - r) % p

/-- Method `Field.negate`: `(self.p - operand.value) % self.p`. -/
def negate (p v : Nat) : Nat := (p - v) % p

/-- Method `Field.inverse`: `a, b, g = xgcd(operand.value, self.p); return
FieldElement(a, self)`.  The Bezout coefficient `a` is returned with no
reduction modulo `p`, so the resulting value is an integer that may be
negative, and there is no zero check of any kind. -/
def inverse (p : Nat) (v : Nat) : Int := (xgcd v p).1

/-- Method `Field.divide`: asserts `not right.is_zero()` (failure modelled
as `none`), then returns `left.value * a % self.p` where `a` is the Bezout
coefficient of `xgcd(right.value, self.p)`.  Python's `%` on a possibly
negative operand with positive modulus is `Int.emod`. -/
def divide (p : Nat) (l r : Nat) : Option Int :=
  if r = 0 then none
  else some ((l * (xgcd r p).1) % (p : Int))

end Field

namespace FieldElement

/-- Operator `FieldElement.__pow__`: the recursive halving
("double-and-add") exponentiation of src/abstract.py.  `exponent == 0`
returns `field.one()` (value 1), `exponent == 1` returns `self`
unreduced; an even exponent squares the base and halves the exponent; an
odd exponent multiplies by the base once, with the field multiplication
reducing modulo `p`. -/
def pow (p v e : Nat) : Nat :=
  if e = 0 then 1
  else if e = 1 then v
  else if e % 2 = 0 then pow p ((v * v) % p) (e / 2)
  else (v * pow p ((v * v) % p) ((e - 1) / 2)) % p
termination_by e
decreasing_by
  · omega
  · omega

/-- Length of `bin(n)[2:]` in Python: one digit for `n = 0`, otherwise
`floor(log2 n) + 1` digits. -/
def numBits (n : Nat) : Nat := if n = 0 then 1 else n.log2 + 1

/-- Loop of operator `FieldElement.__xor__`: iterates over the bit indices
`i = len(bin(exponent)[2:]) - 1, ..., 0`, squaring the accumulator and
multiplying by the base value whenever `(1 << i) & exponent != 0`.  The
first argument of the recursion is the accumulator, the second the number
of bit positions still to process (so the current index is `k` when the
counter is `k + 1`). -/
def xorIter (p val n : Nat) : Nat → Nat → Nat
  | acc, 0 => acc
  | acc, k + 1 =>
      xorIter p val n
        (if (1 <<< k) &&& n ≠ 0 then (acc * acc) % p * val % p else (acc * acc) % p) k

/-- Operator `FieldElement.__xor__`: accumulator starts at value 1 and the
loop processes every bit position of the exponent from the most
significant down to bit 0. -/
def xorPow (p v e : Nat) : Nat := xorIter p v e 1 (numBits e)

end FieldElement

/-- Comparison target for claim C8, following the spec's words: the n-fold
repeated product of a value with itself via the field multiplication, with
the multiplicative identity (value 1) for `n = 0`. -/
def repeatedMul (p v : Nat) : Nat → Nat
  | 0 => 1
  | n + 1 => Field.multiply p (repeatedMul p v n) v

/-- Curve modulus `p` of `EllipticGroup.__init__` in src/abstract.py
(secp256k1), parsed from the hexadecimal constant of the source. -/
def secpP : Nat := 0xFFFFFFFFFFFFFFFFFFFFFFFFFFFFFFFFFFFFFFFFFFFFFFFFFFFFFFFEFFFFFC2F

/-- Curve coefficient `a` of `EllipticGroup.__init__` (zero). -/
def secpA : Nat := 0x0000000000000000000000000000000000000000000000000000000000000000

/-- Curve coefficient `b` of `EllipticGroup.__init__` (seven). -/
def secpB : Nat := 0x0000000000000000000000000000000000000000000000000000000000000007

/-- Generator x-coordinate `Gx` of `EllipticGroup.__init__`. -/
def secpGx : Nat := 0x79BE667EF9DCBBAC55A06295CE870B07029BFCDB2DCE28D959F2815B16F81798

/-- Generator y-coordinate `Gy` of `EllipticGroup.__init__`. -/
def secpGy : Nat := 0x483ADA7726A3C4655DA4FBFC0E1108A8FD17B448A68554199C47D08FFB10D4B8

/-- Instance state created by `EllipticGroupElement.__init__` in
src/abstract.py: the constructor assigns exactly the attributes `x`
(`FieldElement(x, Field(group.p))`), `y` (likewise) and `group`, performs
no validation, and never fails.  The `group` reference is represented by
the group's modulus `groupP`; no code path ever assigns a `value`
attribute on these instances. -/
structure EllipticGroupElementR where
  x : Nat
  y : Nat
  groupP : Nat

/-- Method `EllipticGroup.generator`: `EllipticGroupElement(self.Gx,
self.Gy, self)`. -/
def generator : EllipticGroupElementR :=
  EllipticGroupElementR.mk secpGx secpGy secpP

/-- Method `EllipticGroupElement.assert_solution`:
`(self.y**2) - (self.x**3) - self.group.a*self.x - self.group.b`, with
`**` the recursive-halving `__pow__` and `-`/`*` the field operations
over `Field(group.p)`; the curve coefficients `a`, `b` are the group's
field elements. -/
def assertSolution (a b : Nat) (e : EllipticGroupElementR) : Nat :=
  Field.subtract e.groupP
    (Field.subtract e.groupP
      (Field.subtract e.groupP
        (FieldElement.pow e.groupP e.y 2)
        (FieldElement.pow e.groupP e.x 3))
      (Field.multiply e.groupP a e.x))
    b

/-- Python attribute lookup on an `EllipticGroupElement` instance for the
numeric attributes: `__init__` assigns only `x`, `y` and `group`, so
looking up any other name -- in particular `value` -- fails (`none`,
Python's AttributeError).  The non-numeric `group` attribute is omitted;
it is never read by `__eq__`. -/
def egeGetAttr (e : EllipticGroupElementR) : String → Option Nat
  | "x" => some e.x
  | "y" => some e.y
  | _ => none

/-- Method `EllipticGroupElement.__eq__`: `self.value == other.value`.
Both operands' `value` attributes are looked up; an absent attribute is a
Python AttributeError, modelled as `Except.error`. -/
def egeEq (self other : EllipticGroupElementR) : Except String Bool :=
  match egeGetAttr self "value" with
  | none => Except.error "AttributeError: value"
  | some a =>
      match egeGetAttr other "value" with
      | none => Except.error "AttributeError: value"
      | some b => Except.ok (a == b)

/-- Modelled from the spec: a curve point of §3 and §4.4, either the
distinguished point at infinity or an affine pair of field-element
values.  Missing from src/abstract.py, which has no point-at-infinity
representation and leaves the group law unimplemented
(`EllipticGroup.multiply` raises NotImplementedError and
`EllipticGroup.double` is `pass`). -/
inductive CurvePoint where
  | infinity : CurvePoint
  | affine (x y : Nat) : CurvePoint
deriving DecidableEq

/-- Modelled from the spec: §4.1's `inverse`, "the unique x such that
a·x ≡ 1 (mod modulus), computed via ExtendedEuclid", here normalised into
the canonical range.  Used only by the spec-modelled group law below. -/
def inverseCanon (p v : Nat) : Nat := ((xgcd v p).1 % (p : Int)).toNat

/-- Modelled from the spec: §4.1's `divide(a,b)`, failing with
DivisionByZero when `b` is the additive identity and returning
`a · inverse(b)` otherwise. -/
def divideCanon (p l r : Nat) : Option Nat :=
  if r = 0 then none else some (l * inverseCanon p r % p)

/-- Modelled from the spec: §4.4's `negate(P)`, "(x, −y) for non-infinity
P; infinity negates to itself", with the field negation of §4.1.  The
source only sketches this in `EllipticGroup.inverse`. -/
def ecNegate (p : Nat) : CurvePoint → CurvePoint
  | CurvePoint.infinity => CurvePoint.infinity
  | CurvePoint.affine x y => CurvePoint.affine x (Field.negate p y)

/-- Modelled from the spec: §4.4's group law `add(P, Q)`, missing from
src/abstract.py.  Cases in the spec's order: either operand at infinity;
additive inverses (`P.x == Q.x` and `P.y == -Q.y`) give infinity; doubling
(`P == Q`) uses slope `(3·x² + a) / (2·y)`; distinct points use slope
`(y₂ − y₁) / (x₂ − x₁)`; then `x₃ = λ² − x₁ − x₂` and
`y₃ = λ·(x₁ − x₃) − y₁`.  A zero denominator (the InvalidPointOperation
case of §4.4) is `none`. -/
def ecAdd (p a : Nat) : CurvePoint → CurvePoint → Option CurvePoint
  | CurvePoint.infinity, Q => some Q
  | P, CurvePoint.infinity => some P
  | CurvePoint.affine x1 y1, CurvePoint.affine x2 y2 =>
      if x1 = x2 ∧ y1 = Field.negate p y2 then some CurvePoint.infinity
      else
        let slope :=
          if x1 = x2 ∧ y1 = y2 then
            divideCanon p (Field.add p (Field.multiply p 3 (Field.multiply p x1 x1)) a)
              (Field.multiply p 2 y1)
          else
            divideCanon p (Field.subtract p y2 y1) (Field.subtract p x2 x1)
        match slope with
        | none => none
        | some l =>
            let x3 := Field.subtract p (Field.subtract p (Field.multiply p l l) x1) x2
            some (CurvePoint.affine x3
              (Field.subtract p (Field.multiply p l (Field.subtract p x1 x3)) y1))

/-- Validity of a curve point over modulus `p` with coefficients `a`, `b`:
infinity is valid; an affine point must have canonical coordinates and
satisfy the curve equation `y² ≡ x³ + a·x + b (mod p)`. -/
def isValidPoint (p a b : Nat) : CurvePoint → Bool
  | CurvePoint.infinity => true
  | CurvePoint.affine x y =>
      decide (x < p) && decide (y < p) && (y * y % p == (x * x * x + a * x + b) % p)

/-! Helper lemmas about the `xgcd` loop. -/

theorem xgcdLoop_zero (oldr : Nat) (olds s oldt t : Int) :
    xgcdLoop oldr 0 olds s oldt t = (olds, oldt, oldr) := by
  rw [xgcdLoop]
  simp

theorem xgcdLoop_step (oldr r : Nat) (olds s oldt t : Int) (h : r ≠ 0) :
    xgcdLoop oldr r olds s oldt t =
      xgcdLoop r (oldr - oldr / r * r)
        s (olds - (oldr / r : Nat) * s)
        t (oldt - (oldr / r : Nat) * t) := by
  rw [xgcdLoop]
  simp [h]

theorem sub_update_eq_mod (oldr r : Nat) :
    oldr - oldr / r * r = oldr % r := by
  have h1 := Nat.div_add_mod oldr r
  rw [Nat.mul_comm] at h1
  omega

theorem xgcdLoop_gcd : ∀ r oldr : Nat, ∀ olds s oldt t : Int,
    (xgcdLoop oldr r olds s oldt t).2.2 = Nat.gcd oldr r := by
  intro r
  induction r using Nat.strong_induction_on with
  | _ r ih =>
    intro oldr olds s oldt t
    by_cases h : r = 0
    · subst h; rw [xgcdLoop_zero]; simp
    · rw [xgcdLoop_step _ _ _ _ _ _ h, sub_update_eq_mod oldr r,
        ih _ (Nat.mod_lt _ (Nat.pos_of_ne_zero h))]
      rw [Nat.gcd_comm oldr r, Nat.gcd_rec r oldr]
      exact Nat.gcd_comm _ _

theorem xgcdLoop_bezout (x y : Nat) : ∀ r oldr : Nat, ∀ olds s oldt t : Int,
    olds * x + oldt * y = oldr → s * x + t * y = r →
    (xgcdLoop oldr r olds s oldt t).1 * x + (xgcdLoop oldr r olds s oldt t).2.1 * y
      = ((xgcdLoop oldr r olds s oldt t).2.2 : Int) := by
  intro r
  induction r using Nat.strong_induction_on with
  | _ r ih =>
    intro oldr olds s oldt t h1 h2
    by_cases h : r = 0
    · subst h; rw [xgcdLoop_zero]; exact h1
    · rw [xgcdLoop_step _ _ _ _ _ _ h, sub_update_eq_mod oldr r]
      have hc : ((oldr % r : Nat) : Int) = (oldr : Int) - ((oldr / r : Nat) : Int) * r := by
        have hle : oldr / r * r ≤ oldr := Nat.div_mul_le_self _ _
        rw [← sub_update_eq_mod oldr r, Nat.cast_sub hle, Nat.cast_mul]
      refine ih (oldr % r) (Nat.mod_lt _ (Nat.pos_of_ne_zero h)) r s _ t _ h2 ?_
      rw [hc]
      linear_combination h1 - ((oldr / r : Nat) : Int) * h2

theorem xgcdLoopF_eq : ∀ r fuel : Nat, r ≤ fuel → ∀ oldr : Nat, ∀ olds s oldt t : Int,
    xgcdLoopF fuel oldr r olds s oldt t = some (xgcdLoop oldr r olds s oldt t) := by
  intro r
  induction r using Nat.strong_induction_on with
  | _ r ih =>
    intro fuel hf oldr olds s oldt t
    by_cases h : r = 0
    · subst h
      rw [xgcdLoop_zero]
      unfold xgcdLoopF
      simp
    · match fuel with
      | 0 => omega
      | fuel' + 1 =>
        rw [xgcdLoop_step _ _ _ _ _ _ h]
        unfold xgcdLoopF
        simp only [h, if_false]
        rw [sub_update_eq_mod oldr r]
        exact ih (oldr % r) (Nat.mod_lt _ (Nat.pos_of_ne_zero h)) fuel'
          (by have := Nat.mod_lt oldr (Nat.pos_of_ne_zero h); omega) r _ _ _ _

/-! Helper lemmas about the exponentiation operators. -/

theorem repeatedMul_eq (p v : Nat) (hp : 1 < p) :
    ∀ n, repeatedMul p v n = v ^ n % p := by
  intro n
  induction n with
  | zero => simp [repeatedMul, Nat.mod_eq_of_lt hp]
  | succ n ih =>
      rw [repeatedMul, Field.multiply, ih, pow_succ]
      exact Nat.ModEq.mul_right v (Nat.mod_modEq _ _)

theorem pow_eq (p : Nat) (hp : 1 < p) :
    ∀ e v : Nat, v < p → FieldElement.pow p v e = v ^ e % p := by
  intro e
  induction e using Nat.strong_induction_on with
  | _ e ih =>
    intro v hv
    rw [FieldElement.pow]
    by_cases h0 : e = 0
    · rw [if_pos h0, h0, pow_zero, Nat.mod_eq_of_lt hp]
    · rw [if_neg h0]
      by_cases h1 : e = 1
      · rw [if_pos h1, h1, pow_one, Nat.mod_eq_of_lt hv]
      · rw [if_neg h1]
        have hvv : (v * v) % p < p := Nat.mod_lt _ (by omega)
        by_cases he : e % 2 = 0
        · rw [if_pos he, ih (e / 2) (by omega) _ hvv, ← Nat.pow_mod]
          congr 1
          rw [show v * v = v ^ 2 by ring, ← pow_mul]
          congr 1
          omega
        · rw [if_neg he, ih ((e - 1) / 2) (by omega) _ hvv, ← Nat.pow_mod]
          rw [show ((v * v) ^ ((e - 1) / 2)) = v ^ (e - 1) by
            rw [show v * v = v ^ 2 by ring, ← pow_mul]
            congr 1
            omega]
          conv_rhs => rw [show e = 1 + (e - 1) by omega, pow_add, pow_one, Nat.mul_mod]
          rw [Nat.mul_mod, Nat.mod_mod_of_dvd _ dvd_rfl, Nat.mod_eq_of_lt hv]

theorem xorIter_lt (p val n : Nat) (hp : 0 < p) :
    ∀ k acc, k ≠ 0 → FieldElement.xorIter p val n acc k < p := by
  intro k
  induction k with
  | zero => intro acc h; exact absurd rfl h
  | succ k ih =>
      intro acc _
      rw [FieldElement.xorIter]
      by_cases hk : k = 0
      · subst hk
        rw [FieldElement.xorIter]
        split
        · exact Nat.mod_lt _ hp
        · exact Nat.mod_lt _ hp
      · exact ih _ hk

theorem bit_test_iff (n k : Nat) : ((1 <<< k) &&& n ≠ 0) ↔ n / 2 ^ k % 2 = 1 := by
  rw [Nat.shiftLeft_eq, one_mul, Nat.two_pow_and, Nat.testBit_to_div_mod]
  by_cases hd : n / 2 ^ k % 2 = 1 <;> simp [hd]

theorem xorIter_spec (p val n : Nat) :
    ∀ k acc, acc % p = val ^ (n >>> k) % p →
      FieldElement.xorIter p val n acc k % p = val ^ n % p := by
  intro k
  induction k with
  | zero =>
      intro acc h
      rw [Nat.shiftRight_zero] at h
      rw [FieldElement.xorIter]
      exact h
  | succ k ih =>
      intro acc h
      rw [FieldElement.xorIter]
      apply ih
      have hsh : n >>> k = 2 * (n >>> (k + 1)) + (n >>> k) % 2 := by
        rw [Nat.shiftRight_eq_div_pow, Nat.shiftRight_eq_div_pow, pow_succ,
          ← Nat.div_div_eq_div_mul]
        omega
      set m := n >>> (k + 1) with hm
      by_cases hb : (1 <<< k) &&& n ≠ 0
      · rw [if_pos hb]
        have h2 : (n >>> k) % 2 = 1 := by
          rw [Nat.shiftRight_eq_div_pow]
          exact (bit_test_iff n k).mp hb
        have hke : n >>> k = 2 * m + 1 := by omega
        rw [hke]
        calc (acc * acc) % p * val % p
            ≡ (acc * acc) % p * val [MOD p] := Nat.mod_modEq _ _
          _ ≡ acc * acc * val [MOD p] := Nat.ModEq.mul_right val (Nat.mod_modEq _ _)
          _ ≡ val ^ m * val ^ m * val [MOD p] := Nat.ModEq.mul_right val (Nat.ModEq.mul h h)
          _ = val ^ (2 * m + 1) := by ring
      · rw [if_neg hb]
        have h2 : (n >>> k) % 2 = 0 := by
          have hnot : ¬ (n / 2 ^ k % 2 = 1) := fun hh => hb ((bit_test_iff n k).mpr hh)
          rw [Nat.shiftRight_eq_div_pow]
          omega
        have hke : n >>> k = 2 * m := by omega
        rw [hke]
        calc (acc * acc) % p
            ≡ acc * acc [MOD p] := Nat.mod_modEq _ _
          _ ≡ val ^ m * val ^ m [MOD p] := Nat.ModEq.mul h h
          _ = val ^ (2 * m) := by ring

theorem numBits_ne_zero (e : Nat) : FieldElement.numBits e ≠ 0 := by
  unfold FieldElement.numBits
  by_cases he : e = 0 <;> simp [he]

theorem xorPow_eq (p : Nat) (hp : 1 < p) (v e : Nat) :
    FieldElement.xorPow p v e = v ^ e % p := by
  have hsh : e >>> FieldElement.numBits e = 0 := by
    rw [Nat.shiftRight_eq_div_pow]
    apply Nat.div_eq_of_lt
    unfold FieldElement.numBits
    by_cases he : e = 0
    · simp [he]
    · simp only [he, if_false, ite_false]
      exact (Nat.log2_lt he).mp (Nat.lt_succ_self _)
  have h1 : FieldElement.xorIter p v e 1 (FieldElement.numBits e) % p = v ^ e % p := by
    apply xorIter_spec
    rw [hsh, pow_zero]
  have h2 : FieldElement.xorIter p v e 1 (FieldElement.numBits e) < p :=
    xorIter_lt p v e (by omega) _ 1 (numBits_ne_zero e)
  rw [FieldElement.xorPow, ← Nat.mod_eq_of_lt h2, h1]

/-- Double field negation is the identity on canonical values. -/
theorem negate_negate (p y : Nat) (hy : y < p) :
    Field.negate p (Field.negate p y) = y := by
  unfold Field.negate
  by_cases h0 : y = 0
  · subst h0
    simp [Nat.mod_self]
  · have hin : (p - y) % p = p - y := Nat.mod_eq_of_lt (by omega)
    rw [hin, show p - (p - y) = y by omega, Nat.mod_eq_of_lt hy]

/-! Helper theorems about `xgcd` as a whole. -/

theorem xgcd_bezout_eq (x y : Nat) :
    (xgcd x y).1 * x + (xgcd x y).2.1 * y = ((xgcd x y).2.2 : Int) := by
  apply xgcdLoop_bezout x y y x 1 0 0 1 <;> simp

theorem xgcd_gcd_eq (x y : Nat) : (xgcd x y).2.2 = Nat.gcd x y :=
  xgcdLoop_gcd y x 1 0 0 1

theorem xgcd_gcd_one (x y : Nat) (hp : Nat.Prime y) (hx : 0 < x) (hxy : x < y) :
    (xgcd x y).2.2 = 1 := by
  have hnd : ¬ y ∣ x := fun hd => absurd (Nat.le_of_dvd hx hd) (by omega)
  exact (xgcd_gcd_eq x y).trans
    (Nat.coprime_comm.mp ((Nat.Prime.coprime_iff_not_dvd hp).mpr hnd))

theorem xgcd_inverse_modeq (x y : Nat) (hg : (xgcd x y).2.2 = 1) :
    (xgcd x y).1 * (x : Int) ≡ 1 [ZMOD (y : Nat)] := by
  have hbez := xgcd_bezout_eq x y
  rw [hg] at hbez
  show (xgcd x y).1 * (x : Int) % (y : Nat) = 1 % ((y : Nat) : Int)
  rw [show (xgcd x y).1 * (x : Int) = 1 + -(xgcd x y).2.1 * y by push_cast at hbez ⊢; linarith]
  exact Int.add_mul_emod_self

/-- Evaluation of `assert_solution` at the generator. -/
theorem assertSolution_generator_zero : assertSolution secpA secpB generator = 0 := by
  rw [assertSolution, generator]
  rw [pow_eq secpP (by decide) 2 secpGy (by decide),
    pow_eq secpP (by decide) 3 secpGx (by decide)]
  decide

/-- Evaluation of `assert_solution` at the off-curve pair (Gx, Gy + 1). -/
theorem assertSolution_gyplus1 :
    assertSolution secpA secpB (EllipticGroupElementR.mk secpGx (secpGy + 1) secpP) ≠ 0 := by
  rw [assertSolution]
  rw [pow_eq secpP (by decide) 2 (secpGy + 1) (by decide),
    pow_eq secpP (by decide) 3 secpGx (by decide)]
  decide

/-! Claim theorems. -/

/-- Claim C1: for every pair of non-negative integers x, y, xgcd(x, y)
returns a triple (s, t, g) with s·x + t·y = g and g = gcd(x, y); when y
is prime and 0 < x < y, g = 1 and s mod y is the modular inverse of x
(its product with x is 1 modulo y). -/
theorem xgcd_bezout_gcd_and_inverse (x y : Nat) :
    ((xgcd x y).1 * x + (xgcd x y).2.1 * y = ((xgcd x y).2.2 : Int)
      ∧ (xgcd x y).2.2 = Nat.gcd x y)
    ∧ (Nat.Prime y → 0 < x → x < y →
        (xgcd x y).2.2 = 1 ∧ (xgcd x y).1 % (y : Int) * x % y = 1) := by
  refine ⟨⟨xgcd_bezout_eq x y, xgcd_gcd_eq x y⟩, fun hp hx hxy => ?_⟩
  have hg := xgcd_gcd_one x y hp hx hxy
  refine ⟨hg, ?_⟩
  have hmod : (xgcd x y).1 * (x : Int) % y = 1 % ((y : Nat) : Int) :=
    xgcd_inverse_modeq x y hg
  have hy2 : (2 : Int) ≤ y := by exact_mod_cast hp.two_le
  calc (xgcd x y).1 % (y : Int) * x % y
      = (xgcd x y).1 * (x : Int) % y := by
        rw [Int.mul_emod, Int.emod_emod_of_dvd _ dvd_rfl, ← Int.mul_emod]
    _ = 1 % ((y : Nat) : Int) := hmod
    _ = 1 := Int.emod_eq_of_lt (by norm_num) (by omega)

/-- Witness for C1 at x = 3, y = 11. -/
theorem xgcd_bezout_gcd_and_inverse_witness :
    Nat.Prime 11 ∧ 0 < 3 ∧ 3 < 11 ∧
      ((xgcd 3 11).2.2 = 1 ∧ (xgcd 3 11).1 % (11 : Int) * 3 % 11 = 1) :=
  ⟨by norm_num, by norm_num, by norm_num,
    (xgcd_bezout_gcd_and_inverse 3 11).2 (by norm_num) (by norm_num) (by norm_num)⟩

/-- Counterexample to claim C2 as stated: in the field of modulus 11,
inverse(2) returns the raw Bezout coefficient -5, which does not lie in
[0, 11), so the result is not the unique reduced inverse (that would be
6). -/
theorem inverse_value_out_of_range :
    Field.inverse 11 2 = -5 ∧ ¬ (0 ≤ Field.inverse 11 2 ∧ Field.inverse 11 2 < 11) := by
  have h : Field.inverse 11 2 = -5 := by
    rw [Field.inverse, xgcd]
    rw [xgcdLoop_step 2 11 _ _ _ _ (by norm_num)]
    norm_num
    rw [xgcdLoop_step 11 2 _ _ _ _ (by norm_num)]
    norm_num
    rw [xgcdLoop_step 2 1 _ _ _ _ (by norm_num)]
    norm_num
    rw [xgcdLoop_zero]
  exact ⟨h, by rw [h]; norm_num⟩

/-- Claim C2 (amended): for a prime modulus p and a non-zero canonical
element a, Field.inverse(a) returns an element whose value is a
multiplicative inverse of a.value modulo p (a.value · x.value ≡ 1
(mod p)); the value is the raw Bezout coefficient from xgcd, so it need
not lie in [0, p). -/
theorem inverse_congruent_mod_p (p v : Nat) (hp : Nat.Prime p) (h0 : 0 < v) (hv : v < p) :
    (v : Int) * Field.inverse p v ≡ 1 [ZMOD (p : Nat)] := by
  have h := xgcd_inverse_modeq v p (xgcd_gcd_one v p hp h0 hv)
  rw [Field.inverse, mul_comm]
  exact h

/-- Witness for the amended C2 at p = 11, a = 2. -/
theorem inverse_congruent_mod_p_witness :
    Nat.Prime 11 ∧ 0 < 2 ∧ 2 < 11 ∧
      ((2 : Int) * Field.inverse 11 2 ≡ 1 [ZMOD (11 : Nat)]) :=
  ⟨by norm_num, by norm_num, by norm_num,
    inverse_congruent_mod_p 11 2 (by norm_num) (by norm_num) (by norm_num)⟩

/-- Counterexample to claim C3 as stated: inverse of the zero element of
the field of modulus 11 does not fail with any error; the loop runs once
and the method returns the field element with value 0. -/
theorem inverse_zero_succeeds : Field.inverse 11 0 = 0 := by
  rw [Field.inverse, xgcd]
  rw [xgcdLoop_step 0 11 _ _ _ _ (by norm_num)]
  norm_num
  rw [xgcdLoop_zero]

/-- Claim C3 (amended): divide(a, zero) fails for every a (assertion
"Cannot divide by zero"), but inverse(zero) does not fail: it returns the
field element with value 0 (no DivisionByZero check exists in inverse). -/
theorem divide_zero_fails_inverse_zero_returns_zero (p l : Nat) (hp : 0 < p) :
    Field.divide p l 0 = none ∧ Field.inverse p 0 = 0 := by
  refine ⟨by rw [Field.divide]; simp, ?_⟩
  rw [Field.inverse, xgcd, xgcdLoop_step 0 p _ _ _ _ (by omega)]
  simp [Nat.zero_div, xgcdLoop_zero]

/-- Witness for the amended C3 at p = 11, a = 5. -/
theorem divide_zero_fails_inverse_zero_returns_zero_witness :
    0 < 11 ∧ (Field.divide 11 5 0 = none ∧ Field.inverse 11 0 = 0) :=
  ⟨by norm_num, divide_zero_fails_inverse_zero_returns_zero 11 5 (by norm_num)⟩

/-- Counterexample to claim C4 as stated: in the field of modulus 7 the
inverse of the non-zero canonical element 3 is the field element with
value -2, which is negative and hence outside [0, 7). -/
theorem inverse_result_negative :
    Field.inverse 7 3 = -2 ∧ Field.inverse 7 3 < 0 := by
  have h : Field.inverse 7 3 = -2 := by
    rw [Field.inverse, xgcd]
    rw [xgcdLoop_step 3 7 _ _ _ _ (by norm_num)]
    norm_num
    rw [xgcdLoop_step 7 3 _ _ _ _ (by norm_num)]
    norm_num
    rw [xgcdLoop_step 3 1 _ _ _ _ (by norm_num)]
    norm_num
    rw [xgcdLoop_zero]
  exact ⟨h, by rw [h]; norm_num⟩

/-- Claim C4 (amended): on canonical inputs, add, subtract, multiply,
negate, and divide with a non-zero divisor all return values in [0, p);
inverse is the exception -- it returns the raw Bezout coefficient, which
can lie outside the range (see the counterexample). -/
theorem field_ops_stay_reduced (p l r : Nat) (hp : 0 < p) (hl : l < p) (hr : r < p) :
    Field.add p l r < p ∧ Field.subtract p l r < p ∧ Field.multiply p l r < p ∧
      Field.negate p r < p ∧
      ∀ q : Int, Field.divide p l r = some q → 0 ≤ q ∧ q < p := by
  refine ⟨Nat.mod_lt _ hp, Nat.mod_lt _ hp, Nat.mod_lt _ hp, Nat.mod_lt _ hp, ?_⟩
  intro q hq
  rw [Field.divide] at hq
  by_cases h : r = 0
  · rw [if_pos h] at hq
    exact absurd hq (by simp)
  · rw [if_neg h] at hq
    have hq' : (l * (xgcd r p).1) % (p : Int) = q := by
      injection hq
    rw [← hq']
    exact ⟨Int.emod_nonneg _ (by exact_mod_cast hp.ne'),
      Int.emod_lt_of_pos _ (by exact_mod_cast hp)⟩

/-- Witness for the amended C4 at p = 11, l = 3, r = 5. -/
theorem field_ops_stay_reduced_witness :
    0 < 11 ∧ 3 < 11 ∧ 5 < 11 ∧
      (Field.add 11 3 5 < 11 ∧ Field.subtract 11 3 5 < 11 ∧ Field.multiply 11 3 5 < 11 ∧
        Field.negate 11 5 < 11 ∧
        ∀ q : Int, Field.divide 11 3 5 = some q → 0 ≤ q ∧ q < 11) :=
  ⟨by norm_num, by norm_num, by norm_num,
    field_ops_stay_reduced 11 3 5 (by norm_num) (by norm_num) (by norm_num)⟩

/-- Claim C5: for the exact secp256k1 constants of the source,
Gy² mod p = (Gx³ + 7) mod p, and assert_solution at the point returned by
generator() yields the zero field element. -/
theorem generator_satisfies_curve_equation :
    secpGy ^ 2 % secpP = (secpGx ^ 3 + 7) % secpP ∧
    assertSolution secpA secpB generator = 0 :=
  ⟨by decide, assertSolution_generator_zero⟩

/-- Claim C6 (group law modelled from the spec, the source leaves it
unimplemented): for every valid curve point P, add(P, infinity) = P and
add(P, negate(P)) = the point at infinity. -/
theorem ec_add_identity_and_inverse (p a b : Nat) (P : CurvePoint)
    (hP : isValidPoint p a b P = true) :
    ecAdd p a P CurvePoint.infinity = some P ∧
    ecAdd p a P (ecNegate p P) = some CurvePoint.infinity := by
  cases P with
  | infinity => exact ⟨rfl, rfl⟩
  | affine x y =>
      have hy : y < p := by
        simp only [isValidPoint, Bool.and_eq_true, decide_eq_true_eq] at hP
        exact hP.1.2
      refine ⟨rfl, ?_⟩
      show ecAdd p a (CurvePoint.affine x y) (CurvePoint.affine x (Field.negate p y)) = _
      rw [ecAdd]
      rw [if_pos ⟨rfl, (negate_negate p y hy).symm⟩]

/-- Witness for C6 on the curve y² = x³ + 7 over the field of modulus 11
at the on-curve point (3, 1). -/
theorem ec_add_identity_and_inverse_witness :
    isValidPoint 11 0 7 (CurvePoint.affine 3 1) = true ∧
      (ecAdd 11 0 (CurvePoint.affine 3 1) CurvePoint.infinity
          = some (CurvePoint.affine 3 1) ∧
        ecAdd 11 0 (CurvePoint.affine 3 1) (ecNegate 11 (CurvePoint.affine 3 1))
          = some CurvePoint.infinity) :=
  ⟨by decide, ec_add_identity_and_inverse 11 0 7 _ (by decide)⟩

/-- Counterexample to claim C7 as stated: constructing the off-curve
coordinate pair (Gx, Gy + 1) does not fail -- the constructor stores the
raw coordinates unchanged -- even though the pair fails the curve
equation (its assert_solution value is non-zero). -/
theorem off_curve_construction_succeeds :
    (EllipticGroupElementR.mk secpGx (secpGy + 1) secpP).x = secpGx ∧
    (EllipticGroupElementR.mk secpGx (secpGy + 1) secpP).y = secpGy + 1 ∧
    assertSolution secpA secpB (EllipticGroupElementR.mk secpGx (secpGy + 1) secpP) ≠ 0 :=
  ⟨rfl, rfl, assertSolution_gyplus1⟩

/-- Claim C7 (amended): construction of a non-infinity curve point stores
the given coordinates unchanged and performs no curve-equation validation
(it never fails, for any coordinate pair); the equation can only be
checked afterwards through the separate assert_solution method, which
yields the zero field element at the generator coordinates and a non-zero
element at (Gx, Gy + 1). -/
theorem construction_skips_validation (x y : Nat) :
    ((EllipticGroupElementR.mk x y secpP).x = x ∧
      (EllipticGroupElementR.mk x y secpP).y = y) ∧
    assertSolution secpA secpB generator = 0 ∧
    assertSolution secpA secpB (EllipticGroupElementR.mk secpGx (secpGy + 1) secpP) ≠ 0 :=
  ⟨⟨rfl, rfl⟩, assertSolution_generator_zero, assertSolution_gyplus1⟩

/-- Claim C8: both exponentiation operators bound on FieldElement
(__pow__ and __xor__) agree with the n-fold repeated product of the
element with itself (the multiplicative identity for n = 0) for every
canonical field element and non-negative exponent; in particular
a^0 = 1 under both operators. -/
theorem exponentiation_operators_agree (p v n : Nat) (hp : 1 < p) (hv : v < p) :
    (FieldElement.pow p v n = repeatedMul p v n ∧
      FieldElement.xorPow p v n = repeatedMul p v n) ∧
    (FieldElement.pow p v 0 = 1 ∧ FieldElement.xorPow p v 0 = 1) := by
  refine ⟨⟨?_, ?_⟩, ?_, ?_⟩
  · rw [pow_eq p hp n v hv, repeatedMul_eq p v hp n]
  · rw [xorPow_eq p hp v n, repeatedMul_eq p v hp n]
  · rw [pow_eq p hp 0 v hv, pow_zero, Nat.mod_eq_of_lt hp]
  · rw [xorPow_eq p hp v 0, pow_zero, Nat.mod_eq_of_lt hp]

/-- Witness for C8 at p = 7, a = 3, n = 5. -/
theorem exponentiation_operators_agree_witness :
    1 < 7 ∧ 3 < 7 ∧
      ((FieldElement.pow 7 3 5 = repeatedMul 7 3 5 ∧
          FieldElement.xorPow 7 3 5 = repeatedMul 7 3 5) ∧
        (FieldElement.pow 7 3 0 = 1 ∧ FieldElement.xorPow 7 3 0 = 1)) :=
  ⟨by norm_num, by norm_num,
    exponentiation_operators_agree 7 3 5 (by norm_num) (by norm_num)⟩

/-- Claim C9: the xgcd while loop reaches r = 0 within finitely many
iterations on every pair of non-negative inputs (at most y + 1
iterations of fuel suffice) and the function deterministically returns
the same triple as the total function xgcd; it never fails. -/
theorem xgcd_loop_terminates (x y : Nat) :
    xgcdLoopF (y + 1) x y 1 0 0 1 = some (xgcd x y) :=
  xgcdLoopF_eq y (y + 1) (by omega) x 1 0 0 1

/-- Claim C10: the inherited __eq__ compares self.value with other.value,
but the EllipticGroupElement constructor sets only x, y and group, so the
value attribute lookup fails and comparing any two curve points is an
AttributeError rather than a boolean. -/
theorem point_eq_raises_attribute_error (P Q : EllipticGroupElementR) :
    egeEq P Q = Except.error "AttributeError: value" := rfl

end Cryptolib
